import Mathlib

/-!
Verification of the `BytesStream` adapter from
`shed/futures_01_ext/src/bytes_stream/mod.rs`.

The adapter wraps a futures-0.1 `Stream` of byte chunks and exposes it
through buffered `Read`/`BufRead`-style operations.  We embed the code
shallowly:

* Bytes are `Nat`s, the buffer (`BytesMut`) is a `List Nat`; capacity is
  not observable in this model.
* The upstream stream is modelled by the script of results its successive
  polls produce: each `StreamEvent` is one poll outcome
  (`Ready(Some(chunk))`, `NotReady`, or `Err e`); an empty script means the
  next poll returns `Ready(None)` (exhaustion).  Polling consumes the head
  of the script.
* `Poll` mirrors futures-0.1 `Poll<T, E> = Result<Async<T>, E>` flattened
  into three constructors.
* `BytesMut::split_to` panics when the index exceeds the length, so the
  `consume` embedding returns `Option`; inside `read` the split index is
  `min buf_len len` and hence always in range, so `read` drops directly.
* The companion single-value decode future lives in
  `bytes_stream_future.rs`, which is declared by `mod bytes_stream_future;`
  but whose body is not part of the sources at hand; it is modelled from
  the specification's algorithm (see `into_future_decode` below).
-/

/-- One poll outcome of the upstream `Stream<Item = Bytes>`: a chunk,
`NotReady`, or an error. The stream is modelled as the list of outcomes its
successive polls yield; the empty list stands for `Ready(None)` forever. -/
inductive StreamEvent (ε : Type) where
  | chunk (b : List Nat)
  | notReady
  | error (e : ε)
deriving DecidableEq, Repr

/-- futures-0.1 `Poll<T, E>`: `Ok(Async::Ready(t))`, `Ok(Async::NotReady)`,
or `Err(e)`. -/
inductive Poll (α ε : Type) where
  | ready (a : α)
  | notReady
  | err (e : ε)
deriving DecidableEq, Repr

/-- `Async::is_not_ready` (after the `?` has removed the error case). -/
def Poll.is_not_ready {α ε : Type} : Poll α ε → Bool
  | .notReady => true
  | _ => false

/-- Errors surfaced by `Read::read` / `BufRead::fill_buf`: either the
`WouldBlock` error built by the adapter itself, or an error propagated
from the source stream. -/
inductive ReadError (ε : Type) where
  | wouldBlock
  | source (e : ε)
deriving DecidableEq, Repr

/-- The `BytesStream<S>` struct: internal buffer `bytes`, the remaining
poll script of the wrapped `stream`, and the `stream_done` flag. -/
structure BytesStream (ε : Type) where
  bytes : List Nat
  stream : List (StreamEvent ε)
  stream_done : Bool
deriving DecidableEq, Repr

/-- The bytes still carried by chunk events of a poll script (`NotReady`
and error events carry none). -/
def streamBytes {ε : Type} : List (StreamEvent ε) → List Nat
  | [] => []
  | StreamEvent.chunk b :: rest => b ++ streamBytes rest
  | StreamEvent.notReady :: rest => streamBytes rest
  | StreamEvent.error _ :: rest => streamBytes rest

/-- All data the adapter can still deliver: buffered bytes followed by the
bytes of the chunks the source has yet to yield. -/
def totalBytes {ε : Type} (s : BytesStream ε) : List Nat :=
  s.bytes ++ streamBytes s.stream

/-- A poll script made of chunk events only: the source never signals
`NotReady` and never fails, it just yields its chunks and then ends. -/
def chunkOnly {ε : Type} : List (StreamEvent ε) → Bool
  | [] => true
  | StreamEvent.chunk _ :: rest => chunkOnly rest
  | StreamEvent.notReady :: _ => false
  | StreamEvent.error _ :: _ => false

namespace BytesStream

variable {ε : Type}

/-- `BytesStream::new`: empty buffer (the 8 KiB default capacity is not
observable here), fresh stream, `stream_done = false`. -/
def new (stream : List (StreamEvent ε)) : BytesStream ε :=
  { bytes := [], stream := stream, stream_done := false }

/-- `BytesStream::is_empty`: `self.bytes.is_empty() && self.stream_done`. -/
def is_empty (s : BytesStream ε) : Bool :=
  s.bytes.isEmpty && s.stream_done

/-- `BytesStream::into_parts`: hand back the unconsumed buffered bytes and
the stream. -/
def into_parts (s : BytesStream ε) : List Nat × List (StreamEvent ε) :=
  (s.bytes, s.stream)

/-- `BytesStream::prepend_bytes`.  The source has two branches: when
`bytes.try_mut()` succeeds the uniquely owned buffer is reused in place and
the old buffer is appended to it; otherwise a fresh buffer is allocated and
both are copied in.  Capacity is not observable in the list model, so both
branches build the same byte sequence; the `uniquely_owned` flag selects
the branch taken. -/
def prepend_bytes (s : BytesStream ε) (bytes : List Nat)
    (uniquely_owned : Bool) : BytesStream ε :=
  let bytes_mut := match uniquely_owned with
    | true => bytes
    | false => [] ++ bytes
  { s with bytes := bytes_mut ++ s.bytes }

/-- `BytesStream::poll_buffer`: if the stream is not done, poll it once;
`NotReady`/`Err` return through `try_ready!` (the event is consumed), a
`None` sets `stream_done`, a chunk is appended with `extend_from_slice`. -/
def poll_buffer (s : BytesStream ε) : Poll Unit ε × BytesStream ε :=
  if s.stream_done then (.ready (), s)
  else
    match s.stream with
    | [] => (.ready (), { s with stream_done := true })
    | .chunk b :: rest =>
        (.ready (), { s with bytes := s.bytes ++ b, stream := rest })
    | .notReady :: rest => (.notReady, { s with stream := rest })
    | .error e :: rest => (.err e, { s with stream := rest })

/-- Termination measure for the `poll_buffer_until` loop: each `ready`
step of `poll_buffer` either shortens the poll script or newly sets
`stream_done`. -/
def pbMeasure (s : BytesStream ε) : Nat :=
  s.stream.length + (if s.stream_done then 0 else 1)

/-- `BytesStream::poll_buffer_until`: `while self.bytes.len() < len &&
!self.stream_done { try_ready!(self.poll_buffer()); }`. -/
def poll_buffer_until (s : BytesStream ε) (len : Nat) :
    Poll Unit ε × BytesStream ε :=
  if h : s.bytes.length < len ∧ s.stream_done = false then
    match hpb : poll_buffer s with
    | (.ready _, s') => poll_buffer_until s' len
    | (.notReady, s') => (.notReady, s')
    | (.err e, s') => (.err e, s')
  else (.ready (), s)
termination_by pbMeasure s
decreasing_by
  have hdone := h.2
  unfold poll_buffer at hpb
  rw [hdone] at hpb
  simp only [Bool.false_eq_true, if_false] at hpb
  rcases hs : s.stream with _ | ⟨ev, rest⟩
  · rw [hs] at hpb
    cases hpb
    simp [pbMeasure, hs, hdone]
  · cases ev
    · rw [hs] at hpb
      cases hpb
      simp [pbMeasure, hs, hdone]
    · rw [hs] at hpb
      simp at hpb
    · rw [hs] at hpb
      simp at hpb

/-- `Read::read for BytesStream`: fill to `buf.len()`, report `WouldBlock`
when the buffer is still empty and the fill was `NotReady`, otherwise copy
`min(buf.len(), bytes.len())` bytes out of the front and `split_to` them
off (returning `Ok(0)` before the split when that length is zero). -/
def read (s0 : BytesStream ε) (buf_len : Nat) :
    Except (ReadError ε) (List Nat) × BytesStream ε :=
  match poll_buffer_until s0 buf_len with
  | (Poll.err e, s) => (.error (.source e), s)
  | (a, s) =>
      if s.bytes.isEmpty && a.is_not_ready then (.error .wouldBlock, s)
      else
        let len := min buf_len s.bytes.length
        if len = 0 then (.ok [], s)
        else (.ok (s.bytes.take len), { s with bytes := s.bytes.drop len })

/-- `BufRead::fill_buf for BytesStream`: thanks to `&&` short-circuiting,
the fill to one byte happens only when the buffer is empty; `WouldBlock`
when it is still empty and the fill was `NotReady`; otherwise a read-only
view of the buffer. -/
def fill_buf (s0 : BytesStream ε) :
    Except (ReadError ε) (List Nat) × BytesStream ε :=
  if s0.bytes.isEmpty then
    match poll_buffer_until s0 1 with
    | (Poll.err e, s) => (.error (.source e), s)
    | (a, s) =>
        if a.is_not_ready then (.error .wouldBlock, s)
        else (.ok s.bytes, s)
  else (.ok s0.bytes, s0)

/-- `BufRead::consume for BytesStream`: `self.bytes.split_to(amt)`.
`BytesMut::split_to` panics when `amt` exceeds the buffered length, so the
embedding returns `none` there. -/
def consume (s : BytesStream ε) (amt : Nat) : Option (BytesStream ε) :=
  if amt ≤ s.bytes.length then some { s with bytes := s.bytes.drop amt }
  else none

/-- Reading a whole split of sizes in sequence, concatenating the returned
byte runs; the first error aborts. -/
def readSplit (s : BytesStream ε) :
    List Nat → Except (ReadError ε) (List Nat) × BytesStream ε
  | [] => (.ok [], s)
  | n :: ns =>
      match read s n with
      | (.ok out, s') =>
          match readSplit s' ns with
          | (.ok outs, s'') => (.ok (out ++ outs), s'')
          | (.error e, s'') => (.error e, s'')
      | (.error e, s') => (.error e, s')

/-- States reachable by driving a `BytesStream` over a plain chunk source:
the poll script holds chunk events only, and once `stream_done` is set the
script has been fully drained. -/
def Wf (s : BytesStream ε) : Prop :=
  chunkOnly s.stream = true ∧ (s.stream_done = true → s.stream = [])

end BytesStream

/-- Modelled from the spec: the decode function consumed by the
single-value decode operation (`bytes_stream_future.rs` is declared by
`mod bytes_stream_future;` but its body is not among the sources).  Per
the spec's external-interface section, given a read-only view of the
buffered bytes it returns a decoded value plus the count of bytes it
consumes, or "need more data" (`Except.ok none`), or a failure;
`decode_eof` is the separate "finalize at end of input" mode. -/
structure Decoder (α : Type) where
  decode : List Nat → Except Unit (Option (α × Nat))
  decode_eof : List Nat → Except Unit (Option (α × Nat))

/-- Modelled from the spec: the possible outcomes of the single-value
decode operation — a value together with the Reader holding the remaining
bytes, "end of input reached without a decodable value" with the leftover
Reader, suspension (would-block propagated outward), a source error, or a
decode failure. -/
inductive DecodeResult (α ε : Type) where
  | done (value : α) (reader : BytesStream ε)
  | prematureEnd (reader : BytesStream ε)
  | suspended (reader : BytesStream ε)
  | sourceError (e : ε)
  | decodeError
deriving Repr

/-- Modelled from the spec: step 4 of the decode algorithm — on exhaustion,
give the decode function one final chance in end-of-input mode; on success
consume exactly the reported bytes, otherwise report "end of input reached
without a decodable value" with the trailing bytes kept in the Reader. -/
def decode_finalize {α ε : Type} (d : Decoder α) (s : BytesStream ε) :
    DecodeResult α ε :=
  match d.decode_eof s.bytes with
  | .error _ => .decodeError
  | .ok (some (v, n)) => .done v { s with bytes := s.bytes.drop n }
  | .ok (none) => .prematureEnd s

/-- Modelled from the spec: `BytesStream::into_future_decode`, the
single-value decode operation of `bytes_stream_future.rs`, run to its next
outcome.  Step 1: probe the decode function on the buffered bytes.  Step
2: on a complete value, consume exactly the bytes it consumed and complete
with the value and the Reader.  Step 3: on "need more data", fetch one
more chunk via `poll_buffer` (suspending on `NotReady`, surfacing source
errors); if the fetch reports exhaustion proceed to the finalize step,
else retry from step 1.  Step 5: decode failures surface immediately. -/
def into_future_decode {α ε : Type} (d : Decoder α) (s : BytesStream ε) :
    DecodeResult α ε :=
  match d.decode s.bytes with
  | .error _ => .decodeError
  | .ok (some (v, n)) => .done v { s with bytes := s.bytes.drop n }
  | .ok (none) =>
      if s.stream_done then decode_finalize d s
      else
        match hpoll : BytesStream.poll_buffer s with
        | (.notReady, s') => .suspended s'
        | (.err e, _) => .sourceError e
        | (.ready _, s') =>
            if hdone2 : s'.stream_done then decode_finalize d s'
            else into_future_decode d s'
termination_by s.stream.length
decreasing_by
  simp only [Bool.not_eq_true] at hdone2
  unfold BytesStream.poll_buffer at hpoll
  by_cases hdone : s.stream_done = true
  · rw [if_pos hdone] at hpoll
    cases hpoll
    exact absurd hdone (by simp [hdone2])
  · simp only [Bool.not_eq_true] at hdone
    rw [hdone] at hpoll
    simp only [Bool.false_eq_true, if_false] at hpoll
    rcases hs : s.stream with _ | ⟨ev, rest⟩
    · rw [hs] at hpoll
      cases hpoll
      simp at hdone2
    · cases ev
      · rw [hs] at hpoll
        cases hpoll
        simp [hs]
      · rw [hs] at hpoll
        simp at hpoll
      · rw [hs] at hpoll
        simp at hpoll

/-!
## Helper lemmas

Facts about `poll_buffer` and the `poll_buffer_until` loop shared by the
claim theorems below.
-/

namespace BytesStream

variable {ε : Type}

theorem pb_done {s : BytesStream ε} (h : s.stream_done = true) :
    poll_buffer s = (.ready (), s) := by
  unfold poll_buffer
  rw [h]
  simp

theorem pb_conserve (s : BytesStream ε) :
    totalBytes (poll_buffer s).2 = totalBytes s := by
  unfold poll_buffer
  rcases hd : s.stream_done
  · simp only [Bool.false_eq_true, if_false]
    rcases hs : s.stream with _ | ⟨ev, rest⟩
    · simp [totalBytes, hs]
    · cases ev <;> simp [totalBytes, streamBytes, hs]
  · simp [totalBytes]

theorem pb_bytes_extend (s : BytesStream ε) :
    ∃ t, (poll_buffer s).2.bytes = s.bytes ++ t := by
  unfold poll_buffer
  rcases hd : s.stream_done
  · simp only [Bool.false_eq_true, if_false]
    rcases hs : s.stream with _ | ⟨ev, rest⟩
    · exact ⟨[], by simp⟩
    · cases ev
      · exact ⟨_, rfl⟩
      · exact ⟨[], by simp⟩
      · exact ⟨[], by simp⟩
  · exact ⟨[], by simp⟩

theorem pb_wf {s : BytesStream ε} (h : Wf s) :
    (poll_buffer s).1 = .ready () ∧ Wf (poll_buffer s).2 := by
  obtain ⟨hc, hd⟩ := h
  unfold poll_buffer
  rcases hdone : s.stream_done
  · simp only [Bool.false_eq_true, if_false]
    rcases hs : s.stream with _ | ⟨ev, rest⟩
    · exact ⟨rfl, rfl, fun _ => rfl⟩
    · cases ev
      · refine ⟨rfl, ?_, ?_⟩
        · rw [hs] at hc
          simpa [chunkOnly] using hc
        · intro hcontra
          simp at hcontra
      · rw [hs] at hc
        simp [chunkOnly] at hc
      · rw [hs] at hc
        simp [chunkOnly] at hc
  · rw [if_pos rfl]
    exact ⟨rfl, hc, fun _ => hd hdone⟩

theorem pbu_step_ready {s s' : BytesStream ε} {len : Nat} {a : Unit}
    (hcond : s.bytes.length < len ∧ s.stream_done = false)
    (hpb : poll_buffer s = (.ready a, s')) :
    poll_buffer_until s len = poll_buffer_until s' len := by
  rw [poll_buffer_until.eq_def, dif_pos hcond]
  split
  · rename_i a2 s2 heq
    rw [hpb] at heq
    cases heq
    rfl
  · rename_i s2 heq
    rw [hpb] at heq
    simp at heq
  · rename_i e s2 heq
    rw [hpb] at heq
    simp at heq

theorem pbu_step_notReady {s s' : BytesStream ε} {len : Nat}
    (hcond : s.bytes.length < len ∧ s.stream_done = false)
    (hpb : poll_buffer s = (.notReady, s')) :
    poll_buffer_until s len = (.notReady, s') := by
  rw [poll_buffer_until.eq_def, dif_pos hcond]
  split
  · rename_i a2 s2 heq
    rw [hpb] at heq
    simp at heq
  · rename_i s2 heq
    rw [hpb] at heq
    cases heq
    rfl
  · rename_i e s2 heq
    rw [hpb] at heq
    simp at heq

theorem pbu_step_err {s s' : BytesStream ε} {len : Nat} {e : ε}
    (hcond : s.bytes.length < len ∧ s.stream_done = false)
    (hpb : poll_buffer s = (.err e, s')) :
    poll_buffer_until s len = (.err e, s') := by
  rw [poll_buffer_until.eq_def, dif_pos hcond]
  split
  · rename_i a2 s2 heq
    rw [hpb] at heq
    simp at heq
  · rename_i s2 heq
    rw [hpb] at heq
    simp at heq
  · rename_i e2 s2 heq
    rw [hpb] at heq
    cases heq
    rfl

theorem pbu_stop {s : BytesStream ε} {len : Nat}
    (hcond : ¬(s.bytes.length < len ∧ s.stream_done = false)) :
    poll_buffer_until s len = (.ready (), s) := by
  rw [poll_buffer_until.eq_def, dif_neg hcond]

theorem pbu_done {s : BytesStream ε} {len : Nat} (h : s.stream_done = true) :
    poll_buffer_until s len = (.ready (), s) := by
  apply pbu_stop
  rintro ⟨-, hfalse⟩
  rw [h] at hfalse
  cases hfalse

theorem pbu_conserve (s : BytesStream ε) (len : Nat) :
    totalBytes (poll_buffer_until s len).2 = totalBytes s := by
  induction s, len using poll_buffer_until.induct with
  | case1 s len hcond a s' hpb ih =>
      rw [pbu_step_ready hcond hpb, ih]
      have := pb_conserve s
      rw [hpb] at this
      exact this
  | case2 s len hcond s' hpb =>
      rw [pbu_step_notReady hcond hpb]
      have := pb_conserve s
      rw [hpb] at this
      exact this
  | case3 s len hcond e s' hpb =>
      rw [pbu_step_err hcond hpb]
      have := pb_conserve s
      rw [hpb] at this
      exact this
  | case4 s len hcond =>
      rw [pbu_stop hcond]

theorem pbu_bytes_extend (s : BytesStream ε) (len : Nat) :
    ∃ t, (poll_buffer_until s len).2.bytes = s.bytes ++ t := by
  induction s, len using poll_buffer_until.induct with
  | case1 s len hcond a s' hpb ih =>
      obtain ⟨t, ht⟩ := ih
      have h0 := pb_bytes_extend s
      rw [hpb] at h0
      obtain ⟨t0, ht0⟩ := h0
      refine ⟨t0 ++ t, ?_⟩
      rw [pbu_step_ready hcond hpb, ht, ht0, List.append_assoc]
  | case2 s len hcond s' hpb =>
      have h0 := pb_bytes_extend s
      rw [hpb] at h0
      obtain ⟨t0, ht0⟩ := h0
      exact ⟨t0, by rw [pbu_step_notReady hcond hpb]; exact ht0⟩
  | case3 s len hcond e s' hpb =>
      have h0 := pb_bytes_extend s
      rw [hpb] at h0
      obtain ⟨t0, ht0⟩ := h0
      exact ⟨t0, by rw [pbu_step_err hcond hpb]; exact ht0⟩
  | case4 s len hcond =>
      exact ⟨[], by rw [pbu_stop hcond]; simp⟩

theorem pbu_ready_post (s : BytesStream ε) (len : Nat) :
    (poll_buffer_until s len).1 = .ready () →
    len ≤ (poll_buffer_until s len).2.bytes.length ∨
      (poll_buffer_until s len).2.stream_done = true := by
  induction s, len using poll_buffer_until.induct with
  | case1 s len hcond a s' hpb ih =>
      rw [pbu_step_ready hcond hpb]
      exact ih
  | case2 s len hcond s' hpb =>
      rw [pbu_step_notReady hcond hpb]
      intro h
      simp [Poll.is_not_ready] at h
  | case3 s len hcond e s' hpb =>
      rw [pbu_step_err hcond hpb]
      intro h
      simp at h
  | case4 s len hcond =>
      rw [pbu_stop hcond]
      intro _
      rcases hdone : s.stream_done
      · left
        have hA : ¬(s.bytes.length < len) := fun hl => hcond ⟨hl, hdone⟩
        exact Nat.le_of_not_lt hA
      · right
        rfl

theorem pbu_wf (s : BytesStream ε) (len : Nat) :
    Wf s →
    (poll_buffer_until s len).1 = .ready () ∧ Wf (poll_buffer_until s len).2 := by
  induction s, len using poll_buffer_until.induct with
  | case1 s len hcond a s' hpb ih =>
      intro h
      have hw := pb_wf h
      rw [hpb] at hw
      rw [pbu_step_ready hcond hpb]
      exact ih hw.2
  | case2 s len hcond s' hpb =>
      intro h
      have hw := pb_wf h
      rw [hpb] at hw
      simp at hw
  | case3 s len hcond e s' hpb =>
      intro h
      have hw := pb_wf h
      rw [hpb] at hw
      simp at hw
  | case4 s len hcond =>
      intro h
      rw [pbu_stop hcond]
      exact ⟨rfl, h⟩

end BytesStream

namespace BytesStream

variable {ε : Type}

theorem take_min_length {α : Type} (l : List α) (n : Nat) :
    l.take (min n l.length) = l.take n := by
  rcases le_total n l.length with h | h
  · rw [min_eq_left h]
  · rw [min_eq_right h, List.take_length, List.take_of_length_le h]

theorem drop_min_length {α : Type} (l : List α) (n : Nat) :
    l.drop (min n l.length) = l.drop n := by
  rcases le_total n l.length with h | h
  · rw [min_eq_left h]
  · rw [min_eq_right h, List.drop_length, List.drop_of_length_le h]

theorem read_err_eq {s0 s1 : BytesStream ε} {n : Nat} {e : ε}
    (hU : poll_buffer_until s0 n = (.err e, s1)) :
    read s0 n = (.error (.source e), s1) := by
  unfold read
  rw [hU]

theorem read_ready_eq {s0 s1 : BytesStream ε} {n : Nat}
    (hU : poll_buffer_until s0 n = (.ready (), s1)) :
    read s0 n =
      (.ok (s1.bytes.take (min n s1.bytes.length)),
        { s1 with bytes := s1.bytes.drop (min n s1.bytes.length) }) := by
  unfold read
  rw [hU]
  simp only [Poll.is_not_ready, Bool.and_false, Bool.false_eq_true, if_false]
  by_cases hl : min n s1.bytes.length = 0
  · simp [hl]
  · simp [hl]

theorem read_notReady_empty_eq {s0 s1 : BytesStream ε} {n : Nat}
    (hU : poll_buffer_until s0 n = (.notReady, s1))
    (hempty : s1.bytes = []) :
    read s0 n = (.error .wouldBlock, s1) := by
  unfold read
  rw [hU]
  simp [Poll.is_not_ready, hempty]

theorem read_notReady_nonempty_eq {s0 s1 : BytesStream ε} {n : Nat}
    (hU : poll_buffer_until s0 n = (.notReady, s1))
    (hne : s1.bytes ≠ []) :
    read s0 n =
      (.ok (s1.bytes.take (min n s1.bytes.length)),
        { s1 with bytes := s1.bytes.drop (min n s1.bytes.length) }) := by
  unfold read
  rw [hU]
  have : s1.bytes.isEmpty = false := by
    rcases hb : s1.bytes with _ | ⟨x, xs⟩
    · exact absurd hb hne
    · rfl
  simp only [this, Bool.false_and, Bool.false_eq_true, if_false]
  by_cases hl : min n s1.bytes.length = 0
  · have : s1.bytes.length = 0 ∨ n = 0 := by omega
    rcases this with h0 | h0
    · exact absurd (List.length_eq_zero.mp h0) hne
    · simp [hl, h0]
  · simp [hl]

theorem read_wf {s : BytesStream ε} (h : Wf s) (n : Nat) :
    (read s n).1 = .ok ((totalBytes s).take n) ∧
    Wf (read s n).2 ∧
    totalBytes (read s n).2 = (totalBytes s).drop n := by
  rcases hU : poll_buffer_until s n with ⟨a, s1⟩
  have hwf := pbu_wf s n h
  rw [hU] at hwf
  obtain ⟨ha, hwf1⟩ := hwf
  have ha' : a = Poll.ready () := ha
  subst ha'
  have hcons := pbu_conserve s n
  rw [hU] at hcons
  have hpost := pbu_ready_post s n (by rw [hU])
  rw [hU] at hpost
  rw [read_ready_eq hU]
  have hstream : Wf ({ s1 with bytes := s1.bytes.drop (min n s1.bytes.length) } : BytesStream ε) := hwf1
  refine ⟨?_, hstream, ?_⟩
  · rcases hpost with hlen | hdone
    · rw [min_eq_left hlen]
      rw [← hcons]
      simp only [totalBytes]
      rw [List.take_append_of_le_length hlen]
    · have hnil : s1.stream = [] := hwf1.2 hdone
      have htot : totalBytes s1 = s1.bytes := by
        simp [totalBytes, hnil, streamBytes]
      rw [take_min_length, ← hcons, htot]
  · rcases hpost with hlen | hdone
    · rw [min_eq_left hlen]
      rw [← hcons]
      simp only [totalBytes]
      rw [List.drop_append_of_le_length hlen]
    · have hnil : s1.stream = [] := hwf1.2 hdone
      rw [← hcons]
      simp only [totalBytes, hnil, streamBytes]
      rw [List.append_nil, List.append_nil, drop_min_length]

theorem readSplit_cons_ok {s s1 : BytesStream ε} {n : Nat} {ns : List Nat}
    {out : List Nat} (hR : read s n = (.ok out, s1)) :
    readSplit s (n :: ns) =
      (match readSplit s1 ns with
       | (.ok outs, s'') => (.ok (out ++ outs), s'')
       | (.error e, s'') => (.error e, s'')) := by
  rw [readSplit.eq_def]
  simp only [hR]

theorem readSplit_wf (sizes : List Nat) (s : BytesStream ε) (h : Wf s) :
    (readSplit s sizes).1 = .ok ((totalBytes s).take sizes.sum) ∧
    Wf (readSplit s sizes).2 ∧
    totalBytes (readSplit s sizes).2 = (totalBytes s).drop sizes.sum := by
  induction sizes generalizing s with
  | nil =>
      exact ⟨by simp [readSplit], h, by simp [readSplit]⟩
  | cons n ns ih =>
      obtain ⟨hout, hwf1, htot1⟩ := read_wf h n
      rcases hR : read s n with ⟨r, s1⟩
      rw [hR] at hout hwf1 htot1
      simp only at hout hwf1 htot1
      obtain ⟨houts, hwf2, htot2⟩ := ih s1 hwf1
      rcases hS : readSplit s1 ns with ⟨rs, s2⟩
      rw [hS] at houts hwf2 htot2
      simp only at houts hwf2 htot2
      have hr : r = .ok ((totalBytes s).take n) := hout
      have hrs : rs = .ok ((totalBytes s1).take ns.sum) := houts
      subst hr hrs
      rw [readSplit_cons_ok hR, hS]
      simp only [List.sum_cons]
      refine ⟨?_, hwf2, ?_⟩
      · rw [htot1, List.take_add]
      · rw [htot2, htot1, List.drop_drop, Nat.add_comm]

theorem streamBytes_map_chunk (chunks : List (List Nat)) :
    streamBytes (chunks.map (StreamEvent.chunk (ε := ε))) = chunks.flatten := by
  induction chunks with
  | nil => rfl
  | cons c cs ih => simp [streamBytes, ih]

theorem chunkOnly_map_chunk (chunks : List (List Nat)) :
    chunkOnly (chunks.map (StreamEvent.chunk (ε := ε))) = true := by
  induction chunks with
  | nil => rfl
  | cons c cs ih => simpa [chunkOnly] using ih

theorem wf_new_chunks (chunks : List (List Nat)) :
    Wf (new (ε := ε) (chunks.map StreamEvent.chunk)) := by
  constructor
  · exact chunkOnly_map_chunk chunks
  · intro hcontra
    cases hcontra

end BytesStream

/-!
## Claim theorems
-/

/-- Claim C1: for every sequence of chunks yielded by the source and every
split of read sizes covering them, the concatenation of the byte sequences
returned by successive reads equals the exact concatenation of all chunks,
in order, with no byte lost or duplicated; and whenever the buffer holds
any bytes after filling (the fill not having errored), read returns up to
`buf_len` of them from the front, possibly fewer than requested, removing
them from the buffer. -/
theorem c1_read_size_invariance :
    (∀ (ε : Type) (chunks : List (List Nat)) (sizes : List Nat),
      chunks.flatten.length ≤ sizes.sum →
      (BytesStream.readSplit (BytesStream.new (ε := ε)
          (chunks.map StreamEvent.chunk)) sizes).1 = .ok chunks.flatten) ∧
    (∀ (ε : Type) (s s1 : BytesStream ε) (n : Nat) (a : Poll Unit ε),
      BytesStream.poll_buffer_until s n = (a, s1) →
      (∀ e, a ≠ .err e) →
      s1.bytes ≠ [] →
      BytesStream.read s n =
        (.ok (s1.bytes.take (min n s1.bytes.length)),
          { s1 with bytes := s1.bytes.drop (min n s1.bytes.length) })) := by
  constructor
  · intro ε chunks sizes hcover
    have h := BytesStream.readSplit_wf sizes _ (BytesStream.wf_new_chunks (ε := ε) chunks)
    have htot : totalBytes (BytesStream.new (ε := ε) (chunks.map StreamEvent.chunk)) =
        chunks.flatten := by
      simp [totalBytes, BytesStream.new, BytesStream.streamBytes_map_chunk]
    rw [htot] at h
    rw [h.1, List.take_of_length_le hcover]
  · intro ε s s1 n a hU hne hb
    match a with
    | .ready u =>
        cases u
        exact BytesStream.read_ready_eq hU
    | .notReady =>
        exact BytesStream.read_notReady_nonempty_eq hU hb
    | .err e =>
        exact absurd rfl (hne e)

/-- Witness for C1: chunks `[[1,2],[3]]` read with the split `[2,1]` yield
`[1,2,3]`; and a state with `[9]` buffered whose fill ends `NotReady`
still hands out the buffered `9` on a read of 2. -/
theorem c1_witness :
    (BytesStream.readSplit (BytesStream.new (ε := Nat)
        ([[1,2],[3]].map StreamEvent.chunk)) [2,1]).1 = .ok [1,2,3] ∧
    BytesStream.read (⟨[9], [StreamEvent.notReady], false⟩ : BytesStream Nat) 2 =
      (.ok [9], ⟨[], [], false⟩) := by
  constructor
  · exact c1_read_size_invariance.1 Nat [[1,2],[3]] [2,1] (by decide)
  · have hU : BytesStream.poll_buffer_until
        (⟨[9], [StreamEvent.notReady], false⟩ : BytesStream Nat) 2 =
        (.notReady, ⟨[9], [], false⟩) :=
      BytesStream.pbu_step_notReady (by decide) rfl
    have h := c1_read_size_invariance.2 Nat _ _ 2 .notReady hU
      (fun e h => by cases h) (by decide)
    simpa using h

/-- Claim C4: `is_empty()` returns true if and only if the internal buffer
contains zero bytes and the source has reported exhaustion. -/
theorem c4_is_empty_iff {ε : Type} (s : BytesStream ε) :
    s.is_empty = true ↔ (s.bytes = [] ∧ s.stream_done = true) := by
  simp [BytesStream.is_empty, List.isEmpty_iff]

/-- Claim C5: `prepend_bytes(b)` leaves the buffer equal to `b` followed by
the previously buffered bytes, in both the in-place-reuse branch and the
copying branch, and a subsequent read of `len(b)` bytes returns exactly
`b`. -/
theorem c5_prepend_bytes {ε : Type} (s : BytesStream ε) (b : List Nat)
    (u : Bool) :
    (s.prepend_bytes b u).bytes = b ++ s.bytes ∧
    (BytesStream.read (s.prepend_bytes b u) b.length).1 = .ok b := by
  have hbytes : (s.prepend_bytes b u).bytes = b ++ s.bytes := by
    cases u <;> simp [BytesStream.prepend_bytes]
  refine ⟨hbytes, ?_⟩
  have hlen : b.length ≤ (s.prepend_bytes b u).bytes.length := by
    rw [hbytes, List.length_append]
    omega
  have hU : BytesStream.poll_buffer_until (s.prepend_bytes b u) b.length =
      (.ready (), s.prepend_bytes b u) :=
    BytesStream.pbu_stop (by rintro ⟨hlt, -⟩; omega)
  have hlen' : b.length ≤ (b ++ s.bytes).length := by
    rw [List.length_append]
    omega
  rw [BytesStream.read_ready_eq hU]
  simp only [hbytes, min_eq_left hlen', List.take_left]

/-- Claim C8: for `n` not exceeding the buffered length, `consume(n)`
removes exactly the first `n` bytes from the front and leaves the rest
(and the stream state) unchanged; `consume` with `n` greater than the
buffered length hits the `split_to` panic (modelled as `none`). -/
theorem c8_consume {ε : Type} (s : BytesStream ε) (n : Nat) :
    (n ≤ s.bytes.length →
      ∃ s', s.consume n = some s' ∧
        s.bytes = s.bytes.take n ++ s'.bytes ∧
        s'.bytes.length = s.bytes.length - n ∧
        s'.stream = s.stream ∧ s'.stream_done = s.stream_done) ∧
    (s.bytes.length < n → s.consume n = none) := by
  constructor
  · intro h
    refine ⟨{ s with bytes := s.bytes.drop n }, ?_, ?_, ?_, rfl, rfl⟩
    · simp [BytesStream.consume, h]
    · rw [List.take_append_drop]
    · simp
  · intro h
    unfold BytesStream.consume
    rw [if_neg (by omega)]

/-- Witness for C8: consuming 2 of 3 buffered bytes keeps the third;
consuming 4 of 3 is the panic branch. -/
theorem c8_witness :
    (∃ s', BytesStream.consume (⟨[1,2,3], [], false⟩ : BytesStream Nat) 2 = some s' ∧
        ([1,2,3] : List Nat) = [1,2,3].take 2 ++ s'.bytes ∧
        s'.bytes.length = ([1,2,3] : List Nat).length - 2 ∧
        s'.stream = [] ∧ s'.stream_done = false) ∧
    BytesStream.consume (⟨[1,2,3], [], false⟩ : BytesStream Nat) 4 = none := by
  constructor
  · exact (c8_consume (⟨[1,2,3], [], false⟩ : BytesStream Nat) 2).1 (by decide)
  · exact (c8_consume (⟨[1,2,3], [], false⟩ : BytesStream Nat) 4).2 (by decide)

/-- Claim C9: reading with a zero-length destination buffer returns success
with zero bytes and leaves the state untouched (so the source is not
polled), even when the source is not exhausted — a zero-byte return can
occur without genuine end-of-input. -/
theorem c9_zero_length_read :
    (∀ (ε : Type) (s : BytesStream ε), BytesStream.read s 0 = (.ok [], s)) ∧
    (BytesStream.read (BytesStream.new (ε := Nat) [StreamEvent.chunk [1]]) 0 =
        (.ok [], BytesStream.new [StreamEvent.chunk [1]]) ∧
      (BytesStream.new (ε := Nat) [StreamEvent.chunk [1]]).stream_done = false) := by
  have hmain : ∀ (ε : Type) (s : BytesStream ε), BytesStream.read s 0 = (.ok [], s) := by
    intro ε s
    have hU : BytesStream.poll_buffer_until s 0 = (.ready (), s) :=
      BytesStream.pbu_stop (by rintro ⟨hlt, -⟩; omega)
    rw [BytesStream.read_ready_eq hU]
    simp
  exact ⟨hmain, hmain Nat _, rfl⟩

/-- Claim C10: when the source is exhausted and the buffer is empty,
`fill_buf` returns success with an empty view, not `WouldBlock` or an
error, and does not poll the source (the state is unchanged). -/
theorem c10_fill_buf_exhausted {ε : Type} (s : BytesStream ε)
    (hb : s.bytes = []) (hd : s.stream_done = true) :
    BytesStream.fill_buf s = (.ok [], s) := by
  have hU : BytesStream.poll_buffer_until s 1 = (.ready (), s) :=
    BytesStream.pbu_done hd
  unfold BytesStream.fill_buf
  simp [hb, hU, Poll.is_not_ready]

/-- Witness for C10: an exhausted Reader with an (unreachable) pending
error event still answers an empty peek without touching the source. -/
theorem c10_witness :
    BytesStream.fill_buf (⟨[], [StreamEvent.error 7], true⟩ : BytesStream Nat) =
      (.ok [], ⟨[], [StreamEvent.error 7], true⟩) :=
  c10_fill_buf_exhausted _ rfl rfl

/-- Claim C3 as stated is false: reading with a zero-length destination
returns zero bytes while the source is not exhausted and more data is
still pending (the state, including the unread chunk, is untouched). -/
theorem c3_counterexample :
    (BytesStream.read (BytesStream.new (ε := Nat) [StreamEvent.chunk [1]]) 0).1 =
      .ok [] ∧
    ¬((BytesStream.read (BytesStream.new (ε := Nat)
        [StreamEvent.chunk [1]]) 0).2.stream_done = true) := by
  have hU : BytesStream.poll_buffer_until
      (BytesStream.new (ε := Nat) [StreamEvent.chunk [1]]) 0 =
      (.ready (), BytesStream.new [StreamEvent.chunk [1]]) :=
    BytesStream.pbu_stop (by rintro ⟨hlt, -⟩; omega)
  rw [BytesStream.read_ready_eq hU]
  exact ⟨rfl, by simp [BytesStream.new]⟩

/-- Claim C3 amended to positive-length reads: if after the fill attempt
the buffer is empty and the source reported not-ready, read returns a
WouldBlock error rather than zero bytes; a successful return of zero bytes
from a read with a positive requested length occurs only at genuine
end-of-input (buffer empty, source exhausted); and after a partial read
exhausts the data, a further read returns an empty result successfully. -/
theorem c3_read_eof_semantics :
    (∀ (ε : Type) (s s1 : BytesStream ε) (n : Nat),
      BytesStream.poll_buffer_until s n = (.notReady, s1) → s1.bytes = [] →
      BytesStream.read s n = (.error .wouldBlock, s1)) ∧
    (∀ (ε : Type) (s : BytesStream ε) (n : Nat),
      0 < n → (BytesStream.read s n).1 = .ok [] →
      (BytesStream.read s n).2.bytes = [] ∧
      (BytesStream.read s n).2.stream_done = true) ∧
    ((BytesStream.read (BytesStream.new (ε := Nat)
        [StreamEvent.chunk [1,2,3]]) 4).1 = .ok [1,2,3] ∧
      (BytesStream.read ((BytesStream.read (BytesStream.new (ε := Nat)
        [StreamEvent.chunk [1,2,3]]) 4).2) 1).1 = .ok []) := by
  refine ⟨?_, ?_, ?_⟩
  · intro ε s s1 n hU hb
    exact BytesStream.read_notReady_empty_eq hU hb
  · intro ε s n hn hok
    rcases hU : BytesStream.poll_buffer_until s n with ⟨a, s1⟩
    match a with
    | .err e =>
        rw [BytesStream.read_err_eq hU] at hok
        cases hok
    | .notReady =>
        by_cases hb : s1.bytes = []
        · rw [BytesStream.read_notReady_empty_eq hU hb] at hok
          cases hok
        · rw [BytesStream.read_notReady_nonempty_eq hU hb] at hok
          simp only [Except.ok.injEq] at hok
          rcases List.take_eq_nil_iff.mp hok with h0 | h0
          · have hc : s1.bytes.length = 0 := by omega
            exact absurd (List.length_eq_zero.mp hc) hb
          · exact absurd h0 hb
    | .ready u =>
        cases u
        have hpost := BytesStream.pbu_ready_post s n (by rw [hU])
        rw [hU] at hpost
        simp only at hpost
        rw [BytesStream.read_ready_eq hU] at hok ⊢
        simp only at hok ⊢
        simp only [Except.ok.injEq] at hok
        rcases List.take_eq_nil_iff.mp hok with h0 | h0
        · have hc : s1.bytes.length = 0 := by omega
          have hbe : s1.bytes = [] := List.length_eq_zero.mp hc
          have hdone : s1.stream_done = true := by
            rcases hpost with hlen | hd
            · omega
            · exact hd
          exact ⟨by simp [hbe], hdone⟩
        · have hdone : s1.stream_done = true := by
            rcases hpost with hlen | hd
            · rw [h0] at hlen
              simp at hlen
              omega
            · exact hd
          exact ⟨by simp [h0], hdone⟩
  · have hpb1 : BytesStream.poll_buffer
        (BytesStream.new (ε := Nat) [StreamEvent.chunk [1,2,3]]) =
        (.ready (), ⟨[1,2,3], [], false⟩) := rfl
    have hpb2 : BytesStream.poll_buffer (⟨[1,2,3], [], false⟩ : BytesStream Nat) =
        (.ready (), ⟨[1,2,3], [], true⟩) := rfl
    have hU1 : BytesStream.poll_buffer_until
        (BytesStream.new (ε := Nat) [StreamEvent.chunk [1,2,3]]) 4 =
        (.ready (), ⟨[1,2,3], [], true⟩) := by
      rw [BytesStream.pbu_step_ready (by decide) hpb1,
          BytesStream.pbu_step_ready (by decide) hpb2]
      exact BytesStream.pbu_done rfl
    have hR1 := BytesStream.read_ready_eq hU1
    have h2 : (BytesStream.read (BytesStream.new (ε := Nat)
        [StreamEvent.chunk [1,2,3]]) 4).2 = (⟨[], [], true⟩ : BytesStream Nat) := by
      rw [hR1]
      rfl
    have hU2 : BytesStream.poll_buffer_until (⟨[], [], true⟩ : BytesStream Nat) 1 =
        (.ready (), ⟨[], [], true⟩) := BytesStream.pbu_done rfl
    constructor
    · rw [hR1]
      rfl
    · rw [h2, BytesStream.read_ready_eq hU2]
      rfl

/-- Witness for the amended C3: a not-ready source with an empty buffer
makes a read of 1 report WouldBlock; a read of 1 from an empty exhausted
source returns zero bytes exactly at end-of-input. -/
theorem c3_witness :
    BytesStream.read (⟨[], [StreamEvent.notReady], false⟩ : BytesStream Nat) 1 =
      (.error .wouldBlock, ⟨[], [], false⟩) ∧
    ((BytesStream.read (⟨[], [], false⟩ : BytesStream Nat) 1).2.bytes = [] ∧
      (BytesStream.read (⟨[], [], false⟩ : BytesStream Nat) 1).2.stream_done = true) := by
  have hpbA : BytesStream.poll_buffer
      (⟨[], [StreamEvent.notReady], false⟩ : BytesStream Nat) =
      (.notReady, ⟨[], [], false⟩) := rfl
  have hUA : BytesStream.poll_buffer_until
      (⟨[], [StreamEvent.notReady], false⟩ : BytesStream Nat) 1 =
      (.notReady, ⟨[], [], false⟩) :=
    BytesStream.pbu_step_notReady (by decide) hpbA
  have hpbB : BytesStream.poll_buffer (⟨[], [], false⟩ : BytesStream Nat) =
      (.ready (), ⟨[], [], true⟩) := rfl
  have hUB : BytesStream.poll_buffer_until (⟨[], [], false⟩ : BytesStream Nat) 1 =
      (.ready (), ⟨[], [], true⟩) := by
    rw [BytesStream.pbu_step_ready (by decide) hpbB]
    exact BytesStream.pbu_done rfl
  refine ⟨?_, ?_⟩
  · exact c3_read_eof_semantics.1 Nat _ _ 1 hUA rfl
  · refine c3_read_eof_semantics.2.1 Nat _ 1 (by omega) ?_
    rw [BytesStream.read_ready_eq hUB]
    rfl

/-- Claim C6: the exhausted flag is monotonic — once `stream_done` is set,
`poll_buffer` and `poll_buffer_until` return immediately without touching
the state (so the source is never polled again), and `read` / `fill_buf`
keep the flag set, keep the poll script untouched, and never append a
chunk (the buffer can only lose a front segment). -/
theorem c6_exhausted_monotonic :
    ∀ (ε : Type) (s : BytesStream ε), s.stream_done = true →
      BytesStream.poll_buffer s = (.ready (), s) ∧
      (∀ n, BytesStream.poll_buffer_until s n = (.ready (), s)) ∧
      (∀ n, (BytesStream.read s n).2.stream_done = true ∧
        (BytesStream.read s n).2.stream = s.stream ∧
        ∃ k, (BytesStream.read s n).2.bytes = s.bytes.drop k) ∧
      (BytesStream.fill_buf s).2 = s := by
  intro ε s hd
  refine ⟨BytesStream.pb_done hd, fun n => BytesStream.pbu_done hd, ?_, ?_⟩
  · intro n
    have hU : BytesStream.poll_buffer_until s n = (.ready (), s) :=
      BytesStream.pbu_done hd
    rw [BytesStream.read_ready_eq hU]
    exact ⟨hd, rfl, min n s.bytes.length, rfl⟩
  · have hU : BytesStream.poll_buffer_until s 1 = (.ready (), s) :=
      BytesStream.pbu_done hd
    unfold BytesStream.fill_buf
    rcases hb : s.bytes.isEmpty
    · simp [hb]
    · simp [hb, hU, Poll.is_not_ready]

/-- Witness for C6: an exhausted Reader that (unreachably) still has a
pending chunk event never polls it: every operation leaves the script and
the flag alone. -/
theorem c6_witness :
    BytesStream.poll_buffer (⟨[1,2], [StreamEvent.chunk [9]], true⟩ : BytesStream Nat) =
      (.ready (), ⟨[1,2], [StreamEvent.chunk [9]], true⟩) ∧
    BytesStream.poll_buffer_until
      (⟨[1,2], [StreamEvent.chunk [9]], true⟩ : BytesStream Nat) 5 =
      (.ready (), ⟨[1,2], [StreamEvent.chunk [9]], true⟩) ∧
    ((BytesStream.read (⟨[1,2], [StreamEvent.chunk [9]], true⟩ : BytesStream Nat) 5).2.stream_done = true ∧
      (BytesStream.read (⟨[1,2], [StreamEvent.chunk [9]], true⟩ : BytesStream Nat) 5).2.stream =
        [StreamEvent.chunk [9]] ∧
      ∃ k, (BytesStream.read (⟨[1,2], [StreamEvent.chunk [9]], true⟩ : BytesStream Nat) 5).2.bytes =
        [1,2].drop k) ∧
    (BytesStream.fill_buf (⟨[1,2], [StreamEvent.chunk [9]], true⟩ : BytesStream Nat)).2 =
      ⟨[1,2], [StreamEvent.chunk [9]], true⟩ := by
  have h := c6_exhausted_monotonic Nat ⟨[1,2], [StreamEvent.chunk [9]], true⟩ rfl
  exact ⟨h.1, h.2.1 5, h.2.2.1 5, h.2.2.2⟩

/-- Claim C7: a source error is propagated unchanged through read and
through fill_buf, and a fill — whatever its outcome, including not-ready
and error — never loses already-buffered bytes (the old buffer stays a
prefix of the new one) and conserves the total byte content (nothing
duplicated or dropped). -/
theorem c7_error_propagation :
    ∀ (ε : Type) (s : BytesStream ε) (n : Nat),
      (∃ t, (BytesStream.poll_buffer_until s n).2.bytes = s.bytes ++ t) ∧
      totalBytes (BytesStream.poll_buffer_until s n).2 = totalBytes s ∧
      (∀ e s1, BytesStream.poll_buffer_until s n = (.err e, s1) →
        BytesStream.read s n = (.error (.source e), s1)) ∧
      (∀ e s1, s.bytes = [] → BytesStream.poll_buffer_until s 1 = (.err e, s1) →
        BytesStream.fill_buf s = (.error (.source e), s1)) := by
  intro ε s n
  refine ⟨BytesStream.pbu_bytes_extend s n, BytesStream.pbu_conserve s n, ?_, ?_⟩
  · intro e s1 hU
    exact BytesStream.read_err_eq hU
  · intro e s1 hb hU
    unfold BytesStream.fill_buf
    simp [hb, hU]

/-- Witness for C7: a source whose first poll fails with error 7 after `[1]`
was buffered propagates `source 7` through read with the buffered byte
kept; an empty Reader whose source fails with error 5 propagates it
through fill_buf. -/
theorem c7_witness :
    BytesStream.read (⟨[1], [StreamEvent.error 7], false⟩ : BytesStream Nat) 3 =
      (.error (.source 7), ⟨[1], [], false⟩) ∧
    BytesStream.fill_buf (⟨[], [StreamEvent.error 5], false⟩ : BytesStream Nat) =
      (.error (.source 5), ⟨[], [], false⟩) := by
  have hpbA : BytesStream.poll_buffer (⟨[1], [StreamEvent.error 7], false⟩ : BytesStream Nat) =
      (.err 7, ⟨[1], [], false⟩) := rfl
  have hUA : BytesStream.poll_buffer_until
      (⟨[1], [StreamEvent.error 7], false⟩ : BytesStream Nat) 3 =
      (.err 7, ⟨[1], [], false⟩) := BytesStream.pbu_step_err (by decide) hpbA
  have hpbB : BytesStream.poll_buffer (⟨[], [StreamEvent.error 5], false⟩ : BytesStream Nat) =
      (.err 5, ⟨[], [], false⟩) := rfl
  have hUB : BytesStream.poll_buffer_until
      (⟨[], [StreamEvent.error 5], false⟩ : BytesStream Nat) 1 =
      (.err 5, ⟨[], [], false⟩) := BytesStream.pbu_step_err (by decide) hpbB
  exact ⟨(c7_error_propagation Nat _ 3).2.2.1 7 _ hUA,
    (c7_error_propagation Nat _ 1).2.2.2 5 _ rfl hUB⟩

/-!
## The single-value decode operation (C2)
-/

theorem ifd_value {α ε : Type} {d : Decoder α} {s : BytesStream ε} {v : α}
    {n : Nat} (hdec : d.decode s.bytes = .ok (some (v, n))) :
    into_future_decode d s = .done v { s with bytes := s.bytes.drop n } := by
  rw [into_future_decode.eq_def, hdec]

theorem ifd_needMore_done {α ε : Type} {d : Decoder α} {s : BytesStream ε}
    (hdec : d.decode s.bytes = .ok none) (hdone : s.stream_done = true) :
    into_future_decode d s = decode_finalize d s := by
  rw [into_future_decode.eq_def, hdec]
  simp [hdone]

theorem ifd_poll_notReady {α ε : Type} {d : Decoder α} {s s' : BytesStream ε}
    (hdec : d.decode s.bytes = .ok none) (hdone : s.stream_done = false)
    (hpoll : BytesStream.poll_buffer s = (.notReady, s')) :
    into_future_decode d s = .suspended s' := by
  rw [into_future_decode.eq_def, hdec]
  simp only [hdone, Bool.false_eq_true, if_false]
  split
  · rename_i s2 heq
    rw [hpoll] at heq
    cases heq
    rfl
  · rename_i e s2 heq
    rw [hpoll] at heq
    simp at heq
  · rename_i a s2 heq
    rw [hpoll] at heq
    simp at heq

theorem ifd_poll_err {α ε : Type} {d : Decoder α} {s s' : BytesStream ε} {e : ε}
    (hdec : d.decode s.bytes = .ok none) (hdone : s.stream_done = false)
    (hpoll : BytesStream.poll_buffer s = (.err e, s')) :
    into_future_decode d s = .sourceError e := by
  rw [into_future_decode.eq_def, hdec]
  simp only [hdone, Bool.false_eq_true, if_false]
  split
  · rename_i s2 heq
    rw [hpoll] at heq
    simp at heq
  · rename_i e2 s2 heq
    rw [hpoll] at heq
    cases heq
    rfl
  · rename_i a s2 heq
    rw [hpoll] at heq
    simp at heq

theorem ifd_poll_ready_finalize {α ε : Type} {d : Decoder α}
    {s s' : BytesStream ε} {a : Unit}
    (hdec : d.decode s.bytes = .ok none) (hdone : s.stream_done = false)
    (hpoll : BytesStream.poll_buffer s = (.ready a, s'))
    (hdone2 : s'.stream_done = true) :
    into_future_decode d s = decode_finalize d s' := by
  rw [into_future_decode.eq_def, hdec]
  simp only [hdone, Bool.false_eq_true, if_false]
  split
  · rename_i s2 heq
    rw [hpoll] at heq
    simp at heq
  · rename_i e2 s2 heq
    rw [hpoll] at heq
    simp at heq
  · rename_i a2 s2 heq
    rw [hpoll] at heq
    cases heq
    rw [dif_pos hdone2]

theorem ifd_poll_ready_continue {α ε : Type} {d : Decoder α}
    {s s' : BytesStream ε} {a : Unit}
    (hdec : d.decode s.bytes = .ok none) (hdone : s.stream_done = false)
    (hpoll : BytesStream.poll_buffer s = (.ready a, s'))
    (hdone2 : s'.stream_done = false) :
    into_future_decode d s = into_future_decode d s' := by
  rw [into_future_decode.eq_def, hdec]
  simp only [hdone, Bool.false_eq_true, if_false]
  split
  · rename_i s2 heq
    rw [hpoll] at heq
    simp at heq
  · rename_i e2 s2 heq
    rw [hpoll] at heq
    simp at heq
  · rename_i a2 s2 heq
    rw [hpoll] at heq
    cases heq
    rw [dif_neg (by simp [hdone2])]

theorem isPrefixOf_append (P t : List Nat) : P.isPrefixOf (P ++ t) = true := by
  induction P with
  | nil => simp [List.isPrefixOf]
  | cons a P ih => simp [List.isPrefixOf, ih]

theorem exists_of_isPrefixOf :
    ∀ {P l : List Nat}, P.isPrefixOf l = true → ∃ t, l = P ++ t := by
  intro P
  induction P with
  | nil =>
      intro l _
      exact ⟨l, rfl⟩
  | cons a P ih =>
      intro l h
      cases l with
      | nil => simp [List.isPrefixOf] at h
      | cons b l =>
          simp only [List.isPrefixOf, Bool.and_eq_true, beq_iff_eq] at h
          obtain ⟨t, ht⟩ := ih h.2
          exact ⟨t, by rw [← h.1, ht, List.cons_append]⟩

theorem ifd_chunkOnly_loop {α ε : Type} (d : Decoder α) (P rest : List Nat)
    (v : α)
    (hd : ∀ bs, d.decode bs =
      if P.isPrefixOf bs then Except.ok (some (v, P.length)) else Except.ok none) :
    ∀ (N : Nat) (s : BytesStream ε), s.stream.length ≤ N →
      chunkOnly s.stream = true → s.stream_done = false →
      s.bytes ++ streamBytes s.stream = P ++ rest →
      ∃ s', into_future_decode d s = .done v s' ∧
        s'.bytes ++ streamBytes s'.stream = rest := by
  intro N
  induction N with
  | zero =>
      intro s hlen hc hdone htot
      have hs : s.stream = [] := List.length_eq_zero.mp (Nat.le_zero.mp hlen)
      rw [hs] at htot
      simp only [streamBytes, List.append_nil] at htot
      have hpre : P.isPrefixOf s.bytes = true := by
        rw [htot]
        exact isPrefixOf_append P rest
      have hdec : d.decode s.bytes = .ok (some (v, P.length)) := by
        rw [hd]
        simp [hpre]
      refine ⟨{ s with bytes := s.bytes.drop P.length }, ifd_value hdec, ?_⟩
      rw [hs]
      simp only [streamBytes, List.append_nil]
      rw [htot, List.drop_left]
  | succ N ih =>
      intro s hlen hc hdone htot
      by_cases hpre : P.isPrefixOf s.bytes = true
      · have hdec : d.decode s.bytes = .ok (some (v, P.length)) := by
          rw [hd]
          simp [hpre]
        obtain ⟨t, ht⟩ := exists_of_isPrefixOf hpre
        refine ⟨{ s with bytes := s.bytes.drop P.length }, ifd_value hdec, ?_⟩
        have htcan : t ++ streamBytes s.stream = rest := by
          rw [ht, List.append_assoc] at htot
          exact List.append_cancel_left htot
        rw [ht, List.drop_left]
        exact htcan
      · have hdec : d.decode s.bytes = .ok none := by
          rw [hd]
          simp [hpre]
        rcases hs : s.stream with _ | ⟨ev, rest2⟩
        · exfalso
          rw [hs] at htot
          simp only [streamBytes, List.append_nil] at htot
          apply hpre
          rw [htot]
          exact isPrefixOf_append P rest
        · cases ev with
          | chunk b =>
              have hpoll : BytesStream.poll_buffer s =
                  (.ready (), { s with bytes := s.bytes ++ b, stream := rest2 }) := by
                unfold BytesStream.poll_buffer
                rw [hdone]
                simp only [Bool.false_eq_true, if_false]
                rw [hs]
              rw [ifd_poll_ready_continue hdec hdone hpoll hdone]
              apply ih
              · show rest2.length ≤ N
                rw [hs] at hlen
                simp only [List.length_cons] at hlen
                omega
              · show chunkOnly rest2 = true
                rw [hs] at hc
                simpa [chunkOnly] using hc
              · exact hdone
              · show (s.bytes ++ b) ++ streamBytes rest2 = P ++ rest
                rw [hs] at htot
                simp only [streamBytes] at htot
                rw [List.append_assoc]
                exact htot
          | notReady =>
              exfalso
              rw [hs] at hc
              simp [chunkOnly] at hc
          | error e =>
              exfalso
              rw [hs] at hc
              simp [chunkOnly] at hc

/-- Claim C2: for every decode function that parses a value `v` consuming
exactly a prefix `P` (succeeding as soon as `P` is buffered and asking for
more data otherwise) and every way of splitting a byte sequence `P ++ rest`
into chunks, the single-value decode operation returns `v` together with a
Reader whose buffered bytes plus remaining source chunks are exactly
`rest`, the bytes following `P`. -/
theorem c2_decode_prefix :
    ∀ (α ε : Type) (d : Decoder α) (chunks : List (List Nat))
      (P rest : List Nat) (v : α),
      (∀ bs, d.decode bs =
        if P.isPrefixOf bs then Except.ok (some (v, P.length)) else Except.ok none) →
      chunks.flatten = P ++ rest →
      ∃ s', into_future_decode d
          (BytesStream.new (ε := ε) (chunks.map StreamEvent.chunk)) = .done v s' ∧
        s'.bytes ++ streamBytes s'.stream = rest := by
  intro α ε d chunks P rest v hd hsplit
  apply ifd_chunkOnly_loop d P rest v hd (chunks.map StreamEvent.chunk).length
  · exact le_refl _
  · exact BytesStream.chunkOnly_map_chunk chunks
  · rfl
  · simp [BytesStream.new, BytesStream.streamBytes_map_chunk, hsplit]

/-- Witness for C2: a decoder that consumes the two-byte prefix `[1,2]`
yielding 99, run over the split `[[1],[2,3]]`, returns 99 and leaves
exactly `[3]` behind. -/
theorem c2_witness :
    ∃ s', into_future_decode
        (⟨fun bs => if ([1,2] : List Nat).isPrefixOf bs
            then Except.ok (some (99, 2)) else Except.ok none,
          fun _ => Except.ok none⟩ : Decoder Nat)
        (BytesStream.new (ε := Nat) ([[1],[2,3]].map StreamEvent.chunk)) =
        .done 99 s' ∧
      s'.bytes ++ streamBytes s'.stream = [3] :=
  c2_decode_prefix Nat Nat _ [[1],[2,3]] [1,2] [3] 99 (fun bs => rfl) rfl
